import Mathlib

/-!
Verification development for the CARLsim SNN kernel core data model
(`src/carlsim/kernel/include/snn_datastructures.h`) and the behaviour the
spec attaches to it.  The repository ships only the data-structure header;
the kernel routines referenced by the spec (connection expansion, the
spike delay queue, the integration loop, plasticity consolidation) are
modelled here from the spec's own description, with the header's field
types and documented bit layouts taken as authoritative where they speak.
All arithmetic that the kernel does on floats is modelled over ℚ; machine
integers are modelled as `Nat` with explicit `% 2 ^ w` where width matters.
-/

namespace SNN

/-! ### Packed synapse identifiers (post_info_t)

The header documents `postSynapticIds` as "10 bit syn id, 22 bit neuron id
... maximum synapses of 1024 and maximum network size of 4 million neurons",
and declares `post_info_t` as `{ int postId; uint8_t grpId; }`.  The
pack/unpack macros themselves live outside `src/`. -/

/-- Modelled from the spec: packing helper for the documented layout
"10 bit syn id, 22 bit neuron id" (the `SET_CONN_ID` macro is not in
`src/`); the packed value lives in a 32-bit `int postId` field. -/
def SET_CONN_ID (nid sid : Nat) : Nat := (sid * 2 ^ 22 + nid) % 2 ^ 32

/-- Modelled from the spec: extract the 22-bit neuron id from a packed
`postId` (the `GET_CONN_NEURON_ID` macro is not in `src/`). -/
def GET_CONN_NEURON_ID (postId : Nat) : Nat := postId % 2 ^ 22

/-- Modelled from the spec: extract the 10-bit synapse slot from a packed
`postId` (the `GET_CONN_SYN_ID` macro is not in `src/`). -/
def GET_CONN_SYN_ID (postId : Nat) : Nat := postId / 2 ^ 22

/-- `post_info_t` from the header: a packed 32-bit `postId` and an 8-bit
`grpId` routing field (`uint8_t`, so any stored value is reduced mod 256). -/
structure post_info_t where
  postId : Nat
  grpId : Nat

/-- Modelled from the spec: constructing the per-synapse routing record at
connectivity finalization (the construction code is not in `src/`); the
`uint8_t grpId` field keeps only the low 8 bits of the destination group id. -/
def mkPostInfo (nid sid grp : Nat) : post_info_t :=
  { postId := SET_CONN_ID nid sid, grpId := grp % 256 }

/-! ### Synaptic weights (wt / wtChange / maxSynWt) -/

/-- Per-synapse plastic state: the header's `wt`, `wtChange` and `maxSynWt`
arrays, one slot of each. -/
structure SynState where
  wt : ℚ
  wtChange : ℚ
  maxSynWt : ℚ

/-- Modelled from the spec: an STDP application adds its result to
`wtChange`, leaving `wt` untouched (PlasticityEngine code is not in `src/`). -/
def applyStdp (s : SynState) (dw : ℚ) : SynState :=
  { s with wtChange := s.wtChange + dw }

/-- Modelled from the spec: homeostatic scaling multiplies the `wtChange`
contribution by a rate-deviation factor (code not in `src/`). -/
def applyHomeostasis (s : SynState) (hscale : ℚ) : SynState :=
  { s with wtChange := s.wtChange * hscale }

/-- Modelled from the spec: on the consolidation cadence `wtChange` is
folded into `wt` with clamping to `[0, maxSynWt]`, and `wtChange` decays by
the header's `wtChangeDecay` factor (code not in `src/`). -/
def consolidateWt (wtChangeDecay : ℚ) (s : SynState) : SynState :=
  { s with
    wt := min (max (s.wt + s.wtChange) 0) s.maxSynWt
    wtChange := s.wtChange * wtChangeDecay }

/-- The clamping invariant `0 ≤ wt ≤ maxSynWt`. -/
def wtInRange (s : SynState) : Prop := 0 ≤ s.wt ∧ s.wt ≤ s.maxSynWt

/-! ### Conductance decay (gAMPA/gNMDA/gGABAa/gGABAb with dAMPA etc.) -/

/-- Modelled from the spec: one decay step of a conductance channel with
per-channel decay multiplier `d` (the header's `dAMPA` etc.), clamped at
zero (SynapticDynamics code is not in `src/`). -/
def decayCond (d g : ℚ) : ℚ := max 0 (d * g)

/-- Iterated conductance decay with no further spike input. -/
def decayIter (d g : ℚ) : Nat → ℚ
  | 0 => g
  | n + 1 => decayCond d (decayIter d g n)

/-! ### Per-step firing flag (curSpike, simNumStepsPerMs sub-steps) -/

/-- One neuron's within-step firing bookkeeping: the header's `curSpike`
flag ("so that we don't produce more than 1 spike per ms") and its
`nSpikeCnt` spike counter. -/
structure NeurSub where
  curSpike : Bool
  nSpikeCnt : Nat

/-- Modelled from the spec: one integration sub-step's spike handling for
one neuron (kernel loop not in `src/`): if the membrane potential crossed
peak in this sub-step and the neuron has not yet fired this step, mark it
fired and enqueue it (count it) — otherwise the flag blocks the enqueue. -/
def subStep (crossed : Bool) (s : NeurSub) : NeurSub :=
  if crossed && !s.curSpike then { curSpike := true, nSpikeCnt := s.nSpikeCnt + 1 } else s

/-- Running all `simNumStepsPerMs` integration sub-steps of one simulation
step; `inputs` records, per sub-step, whether the potential crossed peak. -/
def runSubSteps (inputs : List Bool) (s : NeurSub) : NeurSub :=
  inputs.foldl (fun st c => subStep c st) s

/-- Modelled from the spec: the already-fired flag is cleared at the step
boundary (kernel code not in `src/`). -/
def stepBoundary (s : NeurSub) : NeurSub := { s with curSpike := false }

/-! ### One-to-one connection expansion (conType_t CONN_ONE_TO_ONE) -/

/-- The slice of `group_info_t` that connection expansion reads: the
group's first global neuron id (`StartN`) and its size (`SizeN`). -/
structure GroupRange where
  StartN : Nat
  SizeN : Nat

/-- Modelled from the spec: expansion of a `CONN_ONE_TO_ONE` descriptor
(`connect` code is not in `src/`): it requires equal group sizes and pairs
local index `i` of the source with local index `i` of the destination. -/
def connectOneToOne (src dst : GroupRange) : Option (List (Nat × Nat)) :=
  if src.SizeN = dst.SizeN then
    some ((List.range src.SizeN).map fun i => (src.StartN + i, dst.StartN + i))
  else none

/-! ### Group registration and finalization (group_info_t StartN/EndN/SizeN/MaxDelay) -/

/-- A group as registered by `addGroup`, before finalization: its neuron
count and its maximum synaptic delay (the header's `int8_t MaxDelay`). -/
structure GroupSpec where
  SizeN : Nat
  MaxDelay : Nat

/-- The finalized slice of `group_info_t`: contiguous global neuron id
range `StartN..EndN`, size, and maximum delay. -/
structure GroupInfo where
  StartN : Nat
  EndN : Nat
  SizeN : Nat
  MaxDelay : Nat

/-- Modelled from the spec: `addGroup` validation — neuron-count and delay
parameters must be positive (`ConfigError` otherwise); the validation code
is not in `src/`. -/
def validGroupSpec (g : GroupSpec) : Bool :=
  decide (1 ≤ g.SizeN) && decide (1 ≤ g.MaxDelay)

/-- Modelled from the spec: `finalize()` assigns contiguous neuron-id
ranges to groups in registration order (code not in `src/`). -/
def assignRanges : Nat → List GroupSpec → List GroupInfo
  | _, [] => []
  | start, g :: gs =>
      { StartN := start, EndN := start + g.SizeN - 1, SizeN := g.SizeN,
        MaxDelay := g.MaxDelay } :: assignRanges (start + g.SizeN) gs

/-- Total neuron count of a list of registered groups. -/
def sumSizes (gs : List GroupSpec) : Nat := (gs.map GroupSpec.SizeN).sum

/-- Modelled from the spec: `finalize() -> neuronCount` succeeds only when
every registered group is valid, and then lays the groups out contiguously
starting at neuron id 0 (code not in `src/`). -/
def finalizeGroups (gs : List GroupSpec) : Option (List GroupInfo) :=
  if gs.all validGroupSpec then some (assignRanges 0 gs) else none

/-! ### Double-buffered voltage integration (voltage / nextVoltage) -/

/-- One neuron's Izhikevich constants: the header's `Izh_C`, `Izh_k`,
`Izh_vr`, `Izh_vt` arrays, one slot of each. -/
structure IzhParams where
  izhC : ℚ
  izhK : ℚ
  izhVr : ℚ
  izhVt : ℚ

/-- The integration slice of `network_ptr_t`: per-neuron parameters, the
current-step `voltage` array, `recovery`, the summed input `current`, and
the separate `nextVoltage` buffer ("membrane potential buffer (next/future
time step)"). -/
structure NState (n : Nat) where
  params : Fin n → IzhParams
  voltage : Fin n → ℚ
  recovery : Fin n → ℚ
  current : Fin n → ℚ
  nextVoltage : Fin n → ℚ

attribute [ext] NState

/-- Modelled from the spec: one Euler sub-step of the 9-parameter
Izhikevich ODE for neuron `i` (kernel code not in `src/`) — it reads the
current-step `voltage`, `recovery` and `current` arrays only, never the
`nextVoltage` buffer. -/
def izhNext (dt : ℚ) (st : NState n) (i : Fin n) : ℚ :=
  st.voltage i +
    dt * ((st.params i).izhK * (st.voltage i - (st.params i).izhVr) *
        (st.voltage i - (st.params i).izhVt) - st.recovery i + st.current i) /
      (st.params i).izhC

/-- Modelled from the spec: the integrate phase as one simultaneous write
of the `nextVoltage` buffer (one logical worker per neuron). -/
def integratePar (dt : ℚ) (st : NState n) : NState n :=
  { st with nextVoltage := fun i => izhNext dt st i }

/-- Modelled from the spec: the integrate phase executed by processing
neurons one at a time in the given order, updating `nextVoltage` in place
while reading the untouched current-step arrays. -/
def integrateSeq (dt : ℚ) (order : List (Fin n)) (st : NState n) : NState n :=
  order.foldl
    (fun s i => { s with nextVoltage := Function.update s.nextVoltage i (izhNext dt s i) })
    st

/-! ### Spike delay queue (firingTableD1/firingTableD2, delay_info_t) -/

/-- A reference to a synapse, as routed by the delay queue. -/
abbrev SynRef := Nat

/-- Modelled from the spec: the SpikeDelayQueue state — a ring of
time-indexed buckets (the firing-table management code is not in `src/`);
`buckets b` holds the references of the events whose due time is congruent
to `b` modulo the bucket count. -/
structure SDQ where
  buckets : Nat → List SynRef

/-- The empty delay queue. -/
def emptySDQ : SDQ := ⟨fun _ => []⟩

/-- Modelled from the spec: `enqueue` — the spike of a neuron firing at
time `t` reaches a synapse with delay class `e.2`, so its reference `e.1`
is inserted into bucket `(t + e.2) % B` (code not in `src/`). -/
def enqueueSpike (B t : Nat) (q : SDQ) (e : SynRef × Nat) : SDQ :=
  ⟨fun b => if b = (t + e.2) % B then e.1 :: q.buckets b else q.buckets b⟩

/-- Enqueue all synapse-target updates of the spikes fired at time `t`. -/
def enqueueAll (B t : Nat) (es : List (SynRef × Nat)) (q : SDQ) : SDQ :=
  es.foldl (enqueueSpike B t) q

/-- Modelled from the spec: `drainDue(t)` produces the entries of bucket
`t % B` and clears that bucket (code not in `src/`). -/
def drainDue (B t : Nat) (q : SDQ) : List SynRef × SDQ :=
  (q.buckets (t % B), ⟨fun b => if b = t % B then [] else q.buckets b⟩)

/-- Modelled from the spec: one simulation step of the queue at time `t`
in the spec's fixed phase order — first the spikes fired at `t` are
enqueued, then the events due at `t` are drained (code not in `src/`). -/
def stepSDQ (B : Nat) (enq : Nat → List (SynRef × Nat)) (t : Nat) (q : SDQ) :
    List SynRef × SDQ :=
  drainDue B t (enqueueAll B t (enq t) q)

/-- Queue state before step `t`, starting empty at time 0, under the
enqueue schedule `enq` (the spikes fired at each step with their delay
classes). -/
def runSDQ (B : Nat) (enq : Nat → List (SynRef × Nat)) : Nat → SDQ
  | 0 => emptySDQ
  | t + 1 => (stepSDQ B enq t (runSDQ B enq t)).2

/-- The sequence of synapse references produced by `drainDue` at step `t`. -/
def outSDQ (B : Nat) (enq : Nat → List (SynRef × Nat)) (t : Nat) : List SynRef :=
  (stepSDQ B enq t (runSDQ B enq t)).1

/-! ### One simulation step under the two execution models (memType) -/

/-- The per-step mutable state both execution models must agree on:
voltages (with the double buffer), recovery, the fired set (`curSpike`),
a conductance channel (`gAMPA`, standing for all four channels), the
per-synapse weight arrays, and a neuromodulator concentration (`grpDA`). -/
structure SimState (n m : Nat) where
  voltage : Fin n → ℚ
  nextVoltage : Fin n → ℚ
  recovery : Fin n → ℚ
  curSpike : Fin n → Bool
  gAMPA : Fin n → ℚ
  wt : Fin m → ℚ
  wtChange : Fin m → ℚ
  maxSynWt : Fin m → ℚ
  grpDA : ℚ

/-- The Izhikevich peak voltage used by spike detection. -/
def vpeak : ℚ := 30

/-- The reset potential written on firing. -/
def vreset : ℚ := -65

/-- Modelled from the spec: the integrate phase's per-neuron work — one
4-parameter Izhikevich Euler step fed by the conductance input, reading
the current-step arrays only (kernel code not in `src/`). -/
def phInteg (st : SimState n m) (i : Fin n) : ℚ :=
  st.voltage i + ((4 : ℚ) / 100 * st.voltage i * st.voltage i + 5 * st.voltage i + 140
    - st.recovery i + st.gAMPA i)

/-- One neuron's spike-detection read: did the integrated potential reach
peak? Reads only the `nextVoltage` buffer. -/
def detectSpikeAt (st : SimState n m) (i : Fin n) : Bool :=
  decide (vpeak ≤ st.nextVoltage i)

/-- One neuron's post-detection potential: reset on firing, otherwise the
integrated value; reads only the `nextVoltage` buffer. -/
def detectVoltAt (st : SimState n m) (i : Fin n) : ℚ :=
  if vpeak ≤ st.nextVoltage i then vreset else st.nextVoltage i

/-- One synapse's consolidated weight, clamped to `[0, maxSynWt]`. -/
def plastAt (w dw mw : ℚ) : ℚ := min (max (w + dw) 0) mw

/-- Modelled from the spec: the neuromodulator phase — exponential
relaxation of the concentration toward its baseline (code not in `src/`);
it is a single per-group scalar update, identical in both models. -/
def neuromodDecay (base dk : ℚ) (st : SimState n m) : SimState n m :=
  { st with grpDA := base + (st.grpDA - base) * dk }

/-- Modelled from the spec: the integrate phase as one simultaneous
per-neuron write of `nextVoltage` (parallel model, barrier after). -/
def integPar (st : SimState n m) : SimState n m :=
  { st with nextVoltage := fun i => phInteg st i }

/-- Modelled from the spec: the integrate phase on the sequential host,
processing neurons in the given order, updating `nextVoltage` in place. -/
def integSeq (o : List (Fin n)) (st : SimState n m) : SimState n m :=
  o.foldl
    (fun s i => { s with nextVoltage := Function.update s.nextVoltage i (phInteg s i) }) st

/-- Modelled from the spec: the spike-detection phase as simultaneous
per-neuron writes of `curSpike` and the reset `voltage` (parallel model). -/
def detectPar (st : SimState n m) : SimState n m :=
  { st with curSpike := fun i => detectSpikeAt st i, voltage := fun i => detectVoltAt st i }

/-- Modelled from the spec: the spike-detection phase on the sequential
host, one neuron at a time in the given order. -/
def detectSeq (o : List (Fin n)) (st : SimState n m) : SimState n m :=
  o.foldl
    (fun s i =>
      { s with curSpike := Function.update s.curSpike i (detectSpikeAt s i),
               voltage := Function.update s.voltage i (detectVoltAt s i) }) st

/-- Modelled from the spec: draining the due events sequentially — each
arriving synapse event adds its weighted amount onto the destination
neuron's conductance, in list order. -/
def accumSeq (evs : List (Fin n × ℚ)) (st : SimState n m) : SimState n m :=
  evs.foldl
    (fun s ev => { s with gAMPA := Function.update s.gAMPA ev.1 (s.gAMPA ev.1 + ev.2) }) st

/-- Modelled from the spec: the parallel conductance update — simultaneous
arrivals onto one neuron combine by the order-independent associative sum
(atomic/reduction-safe accumulation). -/
def accumPar (evs : List (Fin n × ℚ)) (st : SimState n m) : SimState n m :=
  { st with gAMPA := fun i =>
      st.gAMPA i + ((evs.filter fun ev => ev.1 = i).map Prod.snd).sum }

/-- Modelled from the spec: the plasticity phase as one simultaneous
per-synapse consolidation of `wtChange` into `wt` (parallel model;
synapse-indexed, so workers are independent). -/
def plastPar (st : SimState n m) : SimState n m :=
  { st with wt := fun j => plastAt (st.wt j) (st.wtChange j) (st.maxSynWt j) }

/-- Modelled from the spec: the plasticity phase on the sequential host,
one synapse at a time in the given order. -/
def plastSeq (o : List (Fin m)) (st : SimState n m) : SimState n m :=
  o.foldl
    (fun s j =>
      { s with wt := Function.update s.wt j (plastAt (s.wt j) (s.wtChange j) (s.maxSynWt j)) })
    st

/-- Modelled from the spec: one simulation step under the massively
parallel model — the fixed phase order integrate → detect spikes → drain
due events into conductances → plasticity → neuromodulator decay, one
simultaneous write per phase with a barrier between phases. -/
def stepPar (base dk : ℚ) (evs : List (Fin n × ℚ)) (st : SimState n m) : SimState n m :=
  neuromodDecay base dk (plastPar (accumPar evs (detectPar (integPar st))))

/-- Modelled from the spec: the same step under sequential host execution,
with the same fixed phase order, each phase processing its workers one at
a time in the given orders and the due events in the given list order. -/
def stepSeq (base dk : ℚ) (oI oD : List (Fin n)) (oP : List (Fin m))
    (evs : List (Fin n × ℚ)) (st : SimState n m) : SimState n m :=
  neuromodDecay base dk (plastSeq oP (accumSeq evs (detectSeq oD (integSeq oI st))))

end SNN

namespace SNN

theorem decayIter_eq_pow (d g : ℚ) (hd0 : 0 ≤ d) (hg : 0 ≤ g) (n : Nat) :
    decayIter d g n = d ^ n * g := by
  induction n with
  | zero => simp [decayIter]
  | succ n ih =>
      have hpos : 0 ≤ d ^ n * g := mul_nonneg (pow_nonneg hd0 n) hg
      have : 0 ≤ d * (d ^ n * g) := mul_nonneg hd0 hpos
      simp only [decayIter, decayCond, ih]
      rw [max_eq_right this]
      ring

theorem runSubSteps_le (inputs : List Bool) :
    ∀ s : NeurSub,
      (runSubSteps inputs s).nSpikeCnt ≤
        s.nSpikeCnt + (if s.curSpike then 0 else 1) := by
  induction inputs with
  | nil => intro s; simp [runSubSteps]
  | cons c cs ih =>
      intro s
      have hstep : runSubSteps (c :: cs) s = runSubSteps cs (subStep c s) := rfl
      rw [hstep]
      by_cases hc : (c && !s.curSpike) = true
      · rw [Bool.and_eq_true] at hc
        have hcur : s.curSpike = false := by simpa using hc.2
        have hsub : subStep c s = { curSpike := true, nSpikeCnt := s.nSpikeCnt + 1 } := by
          simp [subStep, hc.1, hcur]
        rw [hsub]
        have hih := ih { curSpike := true, nSpikeCnt := s.nSpikeCnt + 1 }
        simp only [] at hih
        simp only [hcur] at *
        simp at hih ⊢
        omega
      · have hsub : subStep c s = s := by simp [subStep, hc]
        rw [hsub]
        exact ih s

/-- C4: within one simulation step (whose start clears the `curSpike` flag
at the step boundary), a neuron is marked fired and enqueued at most once,
no matter how many integration sub-steps occur or in which of them the
potential crosses peak. -/
theorem neuron_fires_at_most_once_per_step (inputs : List Bool) (s : NeurSub) :
    (runSubSteps inputs (stepBoundary s)).nSpikeCnt ≤ s.nSpikeCnt + 1 := by
  have h := runSubSteps_le inputs (stepBoundary s)
  simpa [stepBoundary] using h

/-- C2: encoding a (preNeuronId, synapseSlot) pair into the packed synapse
identifier and decoding it back yields exactly the original pair, for every
neuron id below the 22-bit cap (4194304) and every synapse slot below the
10-bit fan-in cap (1024). -/
theorem packed_syn_id_roundtrip (nid sid : Nat) (hn : nid < 2 ^ 22) (hs : sid < 2 ^ 10) :
    GET_CONN_NEURON_ID (SET_CONN_ID nid sid) = nid ∧
      GET_CONN_SYN_ID (SET_CONN_ID nid sid) = sid := by
  simp only [GET_CONN_NEURON_ID, GET_CONN_SYN_ID, SET_CONN_ID]
  omega

theorem packed_syn_id_roundtrip_witness :
    1000000 < 2 ^ 22 ∧ 1023 < 2 ^ 10 ∧
      GET_CONN_NEURON_ID (SET_CONN_ID 1000000 1023) = 1000000 ∧
      GET_CONN_SYN_ID (SET_CONN_ID 1000000 1023) = 1023 := by
  refine ⟨by decide, by decide, ?_⟩
  exact packed_syn_id_roundtrip 1000000 1023 (by decide) (by decide)

/-- C9: the destination-group identifier of every synapse routing record is
stored in an 8-bit field, so the stored value is always below 256, and it
equals the intended group id exactly when that id is below 256 — hence at
most 256 groups are addressable as post-synaptic targets. -/
theorem grpId_eight_bit (nid sid grp : Nat) :
    (mkPostInfo nid sid grp).grpId < 256 ∧
      ((mkPostInfo nid sid grp).grpId = grp ↔ grp < 256) := by
  simp only [mkPostInfo]
  omega

/-- C3: starting from a synapse whose weight is in range, every
weight-updating operation — STDP application, homeostatic scaling, and the
consolidation of `wtChange` into `wt` — leaves the stored weight satisfying
`0 ≤ wt ≤ maxSynWt`; the consolidation clamps out-of-range results. -/
theorem wt_clamped_in_range (s : SynState) (dw hscale dcy : ℚ)
    (hmax : 0 ≤ s.maxSynWt) (hs : wtInRange s) :
    wtInRange (applyStdp s dw) ∧ wtInRange (applyHomeostasis s hscale) ∧
      wtInRange (consolidateWt dcy s) := by
  refine ⟨hs, hs, ?_, ?_⟩
  · exact le_min (le_max_right _ _) hmax
  · exact min_le_right _ _

theorem wt_clamped_in_range_witness :
    wtInRange (applyStdp ⟨1, 5, 2⟩ 7) ∧ wtInRange (applyHomeostasis ⟨1, 5, 2⟩ 3) ∧
      wtInRange (consolidateWt 0 ⟨1, 5, 2⟩) :=
  wt_clamped_in_range ⟨1, 5, 2⟩ 7 3 0 (by norm_num) ⟨by norm_num, by norm_num⟩

/-- C8: with a decay multiplier `d ∈ [0, 1)` derived once from the channel
time constant and the integration time step, repeated conductance decay
with no further input is non-negative at every step, monotonically
non-increasing, and converges to zero. -/
theorem conductance_decay_to_zero (d g : ℚ) (hd0 : 0 ≤ d) (hd1 : d < 1) (hg : 0 ≤ g) :
    (∀ n, 0 ≤ decayIter d g n) ∧ (∀ n, decayIter d g (n + 1) ≤ decayIter d g n) ∧
      ∀ e : ℚ, 0 < e → ∃ N, ∀ n, N ≤ n → decayIter d g n < e := by
  have hpow : ∀ n, decayIter d g n = d ^ n * g := decayIter_eq_pow d g hd0 hg
  refine ⟨?_, ?_, ?_⟩
  · intro n
    rw [hpow]
    exact mul_nonneg (pow_nonneg hd0 n) hg
  · intro n
    rw [hpow, hpow]
    have : d ^ (n + 1) ≤ d ^ n := pow_le_pow_of_le_one hd0 hd1.le (Nat.le_succ n)
    exact mul_le_mul_of_nonneg_right this hg
  · intro e he
    rcases eq_or_lt_of_le hg with hg0 | hgpos
    · refine ⟨0, fun n _ => ?_⟩
      rw [hpow, ← hg0, mul_zero]
      exact he
    · obtain ⟨N, hN⟩ := exists_pow_lt_of_lt_one (div_pos he hgpos) hd1
      refine ⟨N, fun n hn => ?_⟩
      rw [hpow]
      have h1 : d ^ n ≤ d ^ N := pow_le_pow_of_le_one hd0 hd1.le hn
      have h2 : d ^ N * g < e := (lt_div_iff₀ hgpos).mp hN
      calc d ^ n * g ≤ d ^ N * g := mul_le_mul_of_nonneg_right h1 hg
        _ < e := h2

theorem conductance_decay_to_zero_witness :
    (∀ n, 0 ≤ decayIter (1/2) 1 n) ∧
      (∀ n, decayIter (1/2) 1 (n + 1) ≤ decayIter (1/2) 1 n) ∧
      ∀ e : ℚ, 0 < e → ∃ N, ∀ n, N ≤ n → decayIter (1/2) 1 n < e :=
  conductance_decay_to_zero (1/2) 1 (by norm_num) (by norm_num) (by norm_num)

/-- C6: a one-to-one connection requires the two groups to have equal size
(otherwise no synapse list is produced); when the sizes are both `N` it
yields exactly `N` synapses, and synapse `i` connects the `i`-th neuron of
the source group to the `i`-th neuron of the destination group. -/
theorem one_to_one_pairs (src dst : GroupRange) :
    (src.SizeN ≠ dst.SizeN → connectOneToOne src dst = none) ∧
      (src.SizeN = dst.SizeN →
        ∃ syns, connectOneToOne src dst = some syns ∧ syns.length = src.SizeN ∧
          ∀ i, i < src.SizeN → syns[i]? = some (src.StartN + i, dst.StartN + i)) := by
  constructor
  · intro hne
    simp [connectOneToOne, hne]
  · intro heq
    refine ⟨(List.range src.SizeN).map fun i => (src.StartN + i, dst.StartN + i), ?_, ?_, ?_⟩
    · simp [connectOneToOne, heq]
    · simp
    · intro i hi
      simp [List.getElem?_map, List.getElem?_range, hi]

theorem one_to_one_pairs_witness :
    ∃ syns, connectOneToOne ⟨0, 3⟩ ⟨10, 3⟩ = some syns ∧ syns.length = 3 ∧
      ∀ i, i < 3 → syns[i]? = some (0 + i, 10 + i) :=
  (one_to_one_pairs ⟨0, 3⟩ ⟨10, 3⟩).2 rfl

theorem assignRanges_spec (gs : List GroupSpec) :
    ∀ start : Nat, (∀ g ∈ gs, validGroupSpec g = true) →
      (∀ gi ∈ assignRanges start gs,
          gi.EndN - gi.StartN + 1 = gi.SizeN ∧ 1 ≤ gi.MaxDelay ∧
            start ≤ gi.StartN ∧ gi.EndN < start + sumSizes gs) ∧
        List.Pairwise (fun a b => a.EndN < b.StartN) (assignRanges start gs) ∧
        ∀ n, (∃ gi ∈ assignRanges start gs, gi.StartN ≤ n ∧ n ≤ gi.EndN) ↔
          start ≤ n ∧ n < start + sumSizes gs := by
  induction gs with
  | nil =>
      intro start hv
      refine ⟨by simp [assignRanges], by simp [assignRanges], ?_⟩
      intro n
      simp [assignRanges, sumSizes]
  | cons g gs ih =>
      intro start hv
      have hg : validGroupSpec g = true := hv g (List.mem_cons_self g gs)
      simp only [validGroupSpec, Bool.and_eq_true, decide_eq_true_eq] at hg
      have hsz : 1 ≤ g.SizeN := hg.1
      have hmd : 1 ≤ g.MaxDelay := hg.2
      have hvt : ∀ x ∈ gs, validGroupSpec x = true := fun x hx =>
        hv x (List.mem_cons_of_mem g hx)
      obtain ⟨ih1, ih2, ih3⟩ := ih (start + g.SizeN) hvt
      have hsum : sumSizes (g :: gs) = g.SizeN + sumSizes gs := by
        simp [sumSizes]
      refine ⟨?_, ?_, ?_⟩
      · intro gi hgi
        rcases List.mem_cons.mp hgi with hgi | hgi
        · subst hgi
          refine ⟨?_, hmd, le_refl _, ?_⟩
          · show start + g.SizeN - 1 - start + 1 = g.SizeN
            omega
          · show start + g.SizeN - 1 < start + sumSizes (g :: gs)
            rw [hsum]
            omega
        · obtain ⟨e1, e2, e3, e4⟩ := ih1 gi hgi
          refine ⟨e1, e2, by omega, ?_⟩
          rw [hsum]
          omega
      · simp only [assignRanges]
        rw [List.pairwise_cons]
        refine ⟨?_, ih2⟩
        intro b hb
        have := (ih1 b hb).2.2.1
        show start + g.SizeN - 1 < b.StartN
        omega
      · intro n
        rw [hsum]
        constructor
        · rintro ⟨gi, hgi, hlo, hhi⟩
          rcases List.mem_cons.mp hgi with h | h
          · subst h
            have hlo2 : start ≤ n := hlo
            have hhi2 : n ≤ start + g.SizeN - 1 := hhi
            omega
          · have := (ih3 n).mp ⟨gi, h, hlo, hhi⟩
            omega
        · intro hn
          by_cases hcase : n < start + g.SizeN
          · refine ⟨_, List.mem_cons_self _ _, ?_, ?_⟩
            · show start ≤ n
              omega
            · show n ≤ start + g.SizeN - 1
              omega
          · obtain ⟨gi, hgi, hlo, hhi⟩ := (ih3 n).mpr (by omega)
            exact ⟨gi, List.mem_cons_of_mem _ hgi, hlo, hhi⟩

/-- C7: after successful finalization every group record satisfies
`EndN - StartN + 1 = SizeN` and `MaxDelay ≥ 1`, the groups' neuron-id
ranges are pairwise disjoint (each range ends before the next begins), and
together they tile the contiguous range `[0, neuronCount)`; group records
are immutable after finalization, so the invariants persist. -/
theorem finalize_group_invariants (gs : List GroupSpec) (infos : List GroupInfo)
    (hf : finalizeGroups gs = some infos) :
    (∀ gi ∈ infos, gi.EndN - gi.StartN + 1 = gi.SizeN ∧ 1 ≤ gi.MaxDelay) ∧
      List.Pairwise (fun a b => a.EndN < b.StartN) infos ∧
      ∀ n, (∃ gi ∈ infos, gi.StartN ≤ n ∧ n ≤ gi.EndN) ↔ n < sumSizes gs := by
  have hsplit : gs.all validGroupSpec = true ∧ infos = assignRanges 0 gs := by
    by_cases h : gs.all validGroupSpec = true
    · unfold finalizeGroups at hf
      rw [if_pos h] at hf
      exact ⟨h, (Option.some_injective _ hf).symm⟩
    · unfold finalizeGroups at hf
      rw [if_neg h] at hf
      exact absurd hf (by simp)
  obtain ⟨hall, rfl⟩ := hsplit
  have hv : ∀ g ∈ gs, validGroupSpec g = true := fun g hg =>
    List.all_eq_true.mp hall g hg
  obtain ⟨h1, h2, h3⟩ := assignRanges_spec gs 0 hv
  refine ⟨fun gi hgi => ⟨(h1 gi hgi).1, (h1 gi hgi).2.1⟩, h2, fun n => ?_⟩
  rw [h3 n]
  omega

theorem foldl_write_local {α : Type} {k : Nat} (F : (Fin k → α) → Fin k → Fin k → α)
    (hF : ∀ g i j, j ≠ i → F g i j = g j) :
    ∀ (l : List (Fin k)) (g : Fin k → α) (j : Fin k), j ∉ l → (l.foldl F g) j = g j := by
  intro l
  induction l with
  | nil => intro g j hj; rfl
  | cons a l ih =>
      intro g j hj
      have hja : j ≠ a := fun e => hj (e ▸ List.mem_cons_self a l)
      have hjl : j ∉ l := fun e => hj (List.mem_cons_of_mem a e)
      show (l.foldl F (F g a)) j = g j
      rw [ih _ j hjl, hF g a j hja]

theorem foldl_update_mem_ro {α : Type} {k : Nat} (w : Fin k → α) :
    ∀ (l : List (Fin k)) (g : Fin k → α) (j : Fin k), j ∈ l →
      (l.foldl (fun g2 i => Function.update g2 i (w i)) g) j = w j := by
  intro l
  induction l with
  | nil => intro g j hj; simp at hj
  | cons a l ih =>
      intro g j hj
      by_cases hjl : j ∈ l
      · exact ih _ j hjl
      · have hja : j = a := by
          rcases List.mem_cons.mp hj with h | h
          exacts [h, absurd h hjl]
        subst hja
        show (l.foldl _ (Function.update g j (w j))) j = w j
        rw [foldl_write_local _ (fun g2 i j2 hne => Function.update_noteq hne _ _) l _ j hjl]
        exact Function.update_same j (w j) g

theorem foldl_update_cover_ro {α : Type} {k : Nat} (w : Fin k → α)
    (l : List (Fin k)) (hl : ∀ j, j ∈ l) (g : Fin k → α) :
    l.foldl (fun g2 i => Function.update g2 i (w i)) g = w :=
  funext fun j => foldl_update_mem_ro w l g j (hl j)

theorem integrateSeq_decomp (dt : ℚ) {n : Nat} :
    ∀ (order : List (Fin n)) (st : NState n),
      integrateSeq dt order st =
        { st with nextVoltage :=
            order.foldl (fun g i => Function.update g i (izhNext dt st i)) st.nextVoltage } := by
  intro order
  induction order with
  | nil => intro st; rfl
  | cons a l ih =>
      intro st
      show integrateSeq dt l _ = _
      rw [ih]
      rfl

/-- C10: the voltage integrator is double-buffered — it reads the
current-step `voltage` (and `recovery`/`current`) arrays and writes only
the separate `nextVoltage` buffer — so one integration sub-step produces
the same state no matter in which order the neurons are processed, and the
in-place sequential sweep equals the simultaneous per-neuron write. -/
theorem integrate_order_independent {n : Nat} (dt : ℚ) (st : NState n)
    (o1 o2 : List (Fin n)) (h1 : ∀ i, i ∈ o1) (h2 : ∀ i, i ∈ o2) :
    integrateSeq dt o1 st = integratePar dt st ∧
      integrateSeq dt o1 st = integrateSeq dt o2 st := by
  have key : ∀ o : List (Fin n), (∀ i, i ∈ o) → integrateSeq dt o st = integratePar dt st := by
    intro o ho
    rw [integrateSeq_decomp]
    unfold integratePar
    congr 1
    exact foldl_update_cover_ro _ o ho _
  exact ⟨key o1 h1, (key o1 h1).trans (key o2 h2).symm⟩

theorem integrate_order_independent_witness :
    integrateSeq 1 [0, 1]
        (⟨fun _ => ⟨1, 1, 0, 0⟩, fun j => (j.val : ℚ), fun _ => 1, fun _ => 2,
          fun _ => 0⟩ : NState 2) =
        integratePar 1
          (⟨fun _ => ⟨1, 1, 0, 0⟩, fun j => (j.val : ℚ), fun _ => 1, fun _ => 2,
            fun _ => 0⟩ : NState 2) ∧
      integrateSeq 1 [0, 1]
          (⟨fun _ => ⟨1, 1, 0, 0⟩, fun j => (j.val : ℚ), fun _ => 1, fun _ => 2,
            fun _ => 0⟩ : NState 2) =
        integrateSeq 1 [1, 0]
          (⟨fun _ => ⟨1, 1, 0, 0⟩, fun j => (j.val : ℚ), fun _ => 1, fun _ => 2,
            fun _ => 0⟩ : NState 2) :=
  integrate_order_independent 1 _ [0, 1] [1, 0] (by decide) (by decide)

theorem finalize_group_invariants_witness :
    (∀ gi ∈ [(⟨0, 2, 3, 1⟩ : GroupInfo), ⟨3, 4, 2, 4⟩],
        gi.EndN - gi.StartN + 1 = gi.SizeN ∧ 1 ≤ gi.MaxDelay) ∧
      List.Pairwise (fun a b => a.EndN < b.StartN)
        [(⟨0, 2, 3, 1⟩ : GroupInfo), ⟨3, 4, 2, 4⟩] ∧
      ∀ n, (∃ gi ∈ [(⟨0, 2, 3, 1⟩ : GroupInfo), ⟨3, 4, 2, 4⟩],
            gi.StartN ≤ n ∧ n ≤ gi.EndN) ↔
          n < sumSizes [⟨3, 1⟩, ⟨2, 4⟩] :=
  finalize_group_invariants [⟨3, 1⟩, ⟨2, 4⟩] [⟨0, 2, 3, 1⟩, ⟨3, 4, 2, 4⟩] rfl

theorem add_mod_ne_self (B s dd : Nat) (h1 : 1 ≤ dd) (h2 : dd < B) :
    (s + dd) % B ≠ s % B := by
  intro h
  have hmodeq : s + dd ≡ s + 0 [MOD B] := by
    show (s + dd) % B = (s + 0) % B
    simpa using h
  have hdd : dd ≡ 0 [MOD B] := Nat.ModEq.add_left_cancel (Nat.ModEq.refl s) hmodeq
  have hz : dd % B = 0 % B := hdd
  rw [Nat.mod_eq_of_lt h2, Nat.zero_mod] at hz
  omega

theorem enqueueAll_count (B t : Nat) (r : SynRef) :
    ∀ (es : List (SynRef × Nat)) (q : SDQ) (b : Nat),
      ((enqueueAll B t es q).buckets b).count r =
        (q.buckets b).count r +
          es.countP fun e => decide (e.1 = r) && decide ((t + e.2) % B = b) := by
  intro es
  induction es with
  | nil => intro q b; simp [enqueueAll]
  | cons e tl ih =>
      intro q b
      have hstep : enqueueAll B t (e :: tl) q = enqueueAll B t tl (enqueueSpike B t q e) := rfl
      rw [hstep, ih, List.countP_cons]
      have hbval : ((enqueueSpike B t q e).buckets b).count r =
          (q.buckets b).count r +
            if (decide (e.1 = r) && decide ((t + e.2) % B = b)) = true then 1 else 0 := by
        by_cases hb : b = (t + e.2) % B
        · have hcons : (enqueueSpike B t q e).buckets b = e.1 :: q.buckets b := by
            simp [enqueueSpike, hb]
          rw [hcons, List.count_cons]
          by_cases hr : e.1 = r
          · simp [hr, hb.symm]
          · simp [hr]
        · have hsame : (enqueueSpike B t q e).buckets b = q.buckets b := by
            simp [enqueueSpike, hb]
          have hb2 : ¬((t + e.2) % B = b) := fun hx => hb hx.symm
          rw [hsame]
          simp [hb2]
      rw [hbval]
      omega

theorem countP_and_of_unique (r : SynRef) (d : Nat) (qb : SynRef × Nat → Bool) :
    ∀ es : List (SynRef × Nat),
      (es.countP fun e => decide (e.1 = r)) = 1 → (r, d) ∈ es →
      (es.countP fun e => decide (e.1 = r) && qb e) = if qb (r, d) then 1 else 0 := by
  intro es
  induction es with
  | nil => intro h1 h2; simp at h2
  | cons e tl ih =>
      intro h1 h2
      simp only [List.countP_cons] at h1 ⊢
      by_cases hr : e.1 = r
      · have htl : (tl.countP fun e => decide (e.1 = r)) = 0 := by
          rw [if_pos (decide_eq_true hr)] at h1
          omega
        have hnotl : (r, d) ∉ tl := by
          intro hm
          have hpos : 0 < tl.countP fun e => decide (e.1 = r) :=
            List.countP_pos_iff.mpr ⟨(r, d), hm, by simp⟩
          omega
        have he : e = (r, d) := by
          rcases List.mem_cons.mp h2 with h | h
          · exact h.symm
          · exact absurd h hnotl
        have htl2 : (tl.countP fun e => decide (e.1 = r) && qb e) = 0 := by
          have hle : (tl.countP fun e => decide (e.1 = r) && qb e) ≤
              tl.countP fun e => decide (e.1 = r) :=
            List.countP_mono_left fun x hx hpx => (Bool.and_eq_true_iff.mp hpx).1
          omega
        subst he
        simp [htl2]
      · have h1b : (tl.countP fun e => decide (e.1 = r)) = 1 := by
          rw [if_neg (by simp [hr])] at h1
          omega
        have h2b : (r, d) ∈ tl := by
          rcases List.mem_cons.mp h2 with h | h
          · exact absurd (by rw [← h] : e.1 = r) hr
          · exact h
        rw [ih h1b h2b]
        simp [hr]

theorem runSDQ_count (B maxD : Nat) (enq : Nat → List (SynRef × Nat)) (r : SynRef)
    (t0 d : Nat) (hB : maxD < B) (hd1 : 1 ≤ d) (hdm : d ≤ maxD)
    (h1 : ((enq t0).countP fun e => decide (e.1 = r)) = 1)
    (hmem : (r, d) ∈ enq t0)
    (helse : ∀ t, t ≠ t0 → ((enq t).countP fun e => decide (e.1 = r)) = 0) :
    ∀ t b, ((runSDQ B enq t).buckets b).count r =
      if t0 < t ∧ t ≤ t0 + d ∧ b = (t0 + d) % B then 1 else 0 := by
  intro t
  induction t with
  | zero =>
      intro b
      rw [if_neg (by rintro ⟨h, -, -⟩; exact Nat.not_lt_zero t0 h)]
      rfl
  | succ t ih =>
      intro b
      show ((drainDue B t (enqueueAll B t (enq t) (runSDQ B enq t))).2.buckets b).count r = _
      by_cases hb : b = t % B
      · have hclear : (drainDue B t (enqueueAll B t (enq t) (runSDQ B enq t))).2.buckets b = [] := by
          simp [drainDue, hb]
        rw [hclear]
        have hneg : ¬(t0 < t + 1 ∧ t + 1 ≤ t0 + d ∧ b = (t0 + d) % B) := by
          rintro ⟨ha, hb2, hc⟩
          have hdd1 : 1 ≤ t0 + d - t := by omega
          have hdd2 : t0 + d - t < B := by omega
          have hne := add_mod_ne_self B t (t0 + d - t) hdd1 hdd2
          have heq : t + (t0 + d - t) = t0 + d := by omega
          rw [heq] at hne
          exact hne (by rw [← hc, hb])
        rw [if_neg hneg]
        rfl
      · have hkeep : (drainDue B t (enqueueAll B t (enq t) (runSDQ B enq t))).2.buckets b =
            (enqueueAll B t (enq t) (runSDQ B enq t)).buckets b := by
          simp [drainDue, hb]
        rw [hkeep, enqueueAll_count B t r (enq t) (runSDQ B enq t) b, ih b]
        by_cases ht0 : t = t0
        · subst ht0
          rw [if_neg (by rintro ⟨hh, -, -⟩; omega)]
          rw [countP_and_of_unique r d (fun e => decide ((t + e.2) % B = b)) (enq t) h1 hmem]
          simp only [decide_eq_true_eq]
          split_ifs with hx hy hy
          · omega
          · exact absurd ⟨by omega, by omega, hx.symm⟩ hy
          · obtain ⟨-, -, hcc⟩ := hy
            exact absurd hcc.symm hx
          · omega
        · have hz : ((enq t).countP fun e => decide (e.1 = r) && decide ((t + e.2) % B = b)) = 0 := by
            have hle : ((enq t).countP fun e => decide (e.1 = r) && decide ((t + e.2) % B = b)) ≤
                (enq t).countP fun e => decide (e.1 = r) :=
              List.countP_mono_left fun x hx hpx => (Bool.and_eq_true_iff.mp hpx).1
            have hez := helse t ht0
            omega
          rw [hz]
          split_ifs with hC1 hC2 hC2
          · omega
          · obtain ⟨ha1, ha2, ha3⟩ := hC1
            have hfail : ¬(t + 1 ≤ t0 + d) := fun hle => hC2 ⟨by omega, hle, ha3⟩
            have htd : t = t0 + d := by omega
            exact absurd (by rw [ha3, htd] : b = t % B) hb
          · obtain ⟨hb1, hb2, hb3⟩ := hC2
            exact absurd ⟨by omega, by omega, hb3⟩ hC1
          · omega

/-- C1 (amended): provided `bucketCount ≥ maxDelay + 1`, a spike enqueued
into the SpikeDelayQueue at step `t0` for a synapse with delay class
`d ∈ [1, maxDelay]` has its synapse reference produced by `drainDue`
exactly once, at step `t0 + d`, and at no other step, including across
circular-buffer wraparound. -/
theorem spike_drained_exactly_once (B maxD : Nat) (enq : Nat → List (SynRef × Nat))
    (r : SynRef) (t0 d : Nat) (hB : maxD < B) (hd1 : 1 ≤ d) (hdm : d ≤ maxD)
    (h1 : ((enq t0).countP fun e => decide (e.1 = r)) = 1)
    (hmem : (r, d) ∈ enq t0)
    (helse : ∀ t, t ≠ t0 → ((enq t).countP fun e => decide (e.1 = r)) = 0) :
    ∀ t, (outSDQ B enq t).count r = if t = t0 + d then 1 else 0 := by
  intro t
  have hstate := runSDQ_count B maxD enq r t0 d hB hd1 hdm h1 hmem helse
  show ((enqueueAll B t (enq t) (runSDQ B enq t)).buckets (t % B)).count r = _
  rw [enqueueAll_count B t r (enq t) (runSDQ B enq t) (t % B), hstate t (t % B)]
  by_cases ht0 : t = t0
  · subst ht0
    rw [if_neg (by rintro ⟨hh, -, -⟩; omega)]
    rw [countP_and_of_unique r d (fun e => decide ((t + e.2) % B = t % B)) (enq t) h1 hmem]
    have hne := add_mod_ne_self B t d hd1 (by omega)
    rw [if_neg (by simpa using hne)]
    rw [if_neg (by omega : ¬(t = t + d))]
  · have hz : ((enq t).countP fun e => decide (e.1 = r) && decide ((t + e.2) % B = t % B)) = 0 := by
      have hle : ((enq t).countP fun e => decide (e.1 = r) && decide ((t + e.2) % B = t % B)) ≤
          (enq t).countP fun e => decide (e.1 = r) :=
        List.countP_mono_left fun x hx hpx => (Bool.and_eq_true_iff.mp hpx).1
      have hez := helse t ht0
      omega
    rw [hz]
    by_cases htd : t = t0 + d
    · subst htd
      rw [if_pos ⟨by omega, by omega, rfl⟩, if_pos rfl]
    · have hneg : ¬(t0 < t ∧ t ≤ t0 + d ∧ t % B = (t0 + d) % B) := by
        rintro ⟨ha, hb2, hc⟩
        have hdd1 : 1 ≤ t0 + d - t := by omega
        have hdd2 : t0 + d - t < B := by omega
        have hne := add_mod_ne_self B t (t0 + d - t) hdd1 hdd2
        have heq : t + (t0 + d - t) = t0 + d := by omega
        rw [heq] at hne
        exact hne hc.symm
      rw [if_neg hneg, if_neg htd]

theorem spike_drained_exactly_once_witness :
    (outSDQ 2 (fun s => if s = 0 then [(7, 1)] else []) 0).count 7 = 0 ∧
      (outSDQ 2 (fun s => if s = 0 then [(7, 1)] else []) 1).count 7 = 1 ∧
      (outSDQ 2 (fun s => if s = 0 then [(7, 1)] else []) 2).count 7 = 0 :=
  have h := spike_drained_exactly_once 2 1 (fun s => if s = 0 then [(7, 1)] else []) 7 0 1
    (by decide) (by decide) (by decide) (by decide) (by decide)
    (fun t ht => by simp [ht])
  ⟨(h 0).trans (by decide), (h 1).trans (by decide), (h 2).trans (by decide)⟩

theorem foldl_update_self {α : Type} {k : Nat} (v : α → Fin k → α) :
    ∀ l : List (Fin k), l.Nodup → ∀ (g : Fin k → α) (j : Fin k), j ∈ l →
      (l.foldl (fun g2 i => Function.update g2 i (v (g2 i) i)) g) j = v (g j) j := by
  intro l
  induction l with
  | nil => intro hnd g j hj; simp at hj
  | cons a l ih =>
      intro hnd g j hj
      obtain ⟨ha, hndl⟩ := List.nodup_cons.mp hnd
      show (l.foldl _ (Function.update g a (v (g a) a))) j = v (g j) j
      by_cases hja : j = a
      · subst hja
        rw [foldl_write_local _ (fun g2 i j2 hne => Function.update_noteq hne _ _) l _ j ha]
        rw [Function.update_same]
      · have hjl : j ∈ l := by
          rcases List.mem_cons.mp hj with h | h
          exacts [absurd h hja, h]
        rw [ih hndl _ j hjl, Function.update_noteq hja]

theorem foldl_update_self_cover {α : Type} {k : Nat} (v : α → Fin k → α)
    (l : List (Fin k)) (hnd : l.Nodup) (hl : ∀ j, j ∈ l) (g : Fin k → α) :
    l.foldl (fun g2 i => Function.update g2 i (v (g2 i) i)) g = fun j => v (g j) j :=
  funext fun j => foldl_update_self v l hnd g j (hl j)

theorem foldl_accum_decomp {k : Nat} :
    ∀ (evs : List (Fin k × ℚ)) (g : Fin k → ℚ) (j : Fin k),
      (evs.foldl (fun g2 ev => Function.update g2 ev.1 (g2 ev.1 + ev.2)) g) j =
        g j + ((evs.filter fun ev => ev.1 = j).map Prod.snd).sum := by
  intro evs
  induction evs with
  | nil => intro g j; simp
  | cons e tl ih =>
      intro g j
      show (tl.foldl _ (Function.update g e.1 (g e.1 + e.2))) j = _
      rw [ih]
      by_cases hj : e.1 = j
      · subst hj
        rw [Function.update_same]
        have hfil : ((e :: tl).filter fun ev => ev.1 = e.1) =
            e :: (tl.filter fun ev => ev.1 = e.1) := by
          simp [List.filter_cons]
        rw [hfil]
        simp [add_assoc]
      · have hupd : Function.update g e.1 (g e.1 + e.2) j = g j :=
          Function.update_noteq (fun h => hj h.symm) _ _
        rw [hupd]
        have hfil : ((e :: tl).filter fun ev => ev.1 = j) =
            tl.filter fun ev => ev.1 = j := by
          simp [List.filter_cons, hj]
        rw [hfil]

theorem integSeq_decomp {n m : Nat} :
    ∀ (o : List (Fin n)) (st : SimState n m),
      integSeq o st =
        { st with nextVoltage :=
            o.foldl (fun g i => Function.update g i (phInteg st i)) st.nextVoltage } := by
  intro o
  induction o with
  | nil => intro st; rfl
  | cons a l ih =>
      intro st
      show integSeq l _ = _
      rw [ih]
      rfl

theorem detectSeq_decomp {n m : Nat} :
    ∀ (o : List (Fin n)) (st : SimState n m),
      detectSeq o st =
        { st with
          curSpike := o.foldl (fun g i => Function.update g i (detectSpikeAt st i)) st.curSpike,
          voltage := o.foldl (fun g i => Function.update g i (detectVoltAt st i)) st.voltage } := by
  intro o
  induction o with
  | nil => intro st; rfl
  | cons a l ih =>
      intro st
      show detectSeq l _ = _
      rw [ih]
      rfl

theorem accumSeq_decomp {n m : Nat} :
    ∀ (evs : List (Fin n × ℚ)) (st : SimState n m),
      accumSeq evs st =
        { st with gAMPA :=
            evs.foldl (fun g ev => Function.update g ev.1 (g ev.1 + ev.2)) st.gAMPA } := by
  intro evs
  induction evs with
  | nil => intro st; rfl
  | cons e tl ih =>
      intro st
      show accumSeq tl _ = _
      rw [ih]
      rfl

theorem plastSeq_decomp {n m : Nat} :
    ∀ (o : List (Fin m)) (st : SimState n m),
      plastSeq o st =
        { st with wt := o.foldl (fun g j => Function.update g j (plastAt (g j) (st.wtChange j) (st.maxSynWt j))) st.wt } := by
  intro o
  induction o with
  | nil => intro st; rfl
  | cons a l ih =>
      intro st
      show plastSeq l _ = _
      rw [ih]
      rfl

/-- C5: for identical inputs (same state, same due events up to the order
in which simultaneous arrivals are combined), the sequential host
execution of one simulation step — phases in the fixed order with
in-place, order-dependent-looking sweeps — and the barrier-synchronized
parallel execution produce identical resulting state: voltages,
conductances, weights and the fired set all agree. -/
theorem step_seq_par_identical {n m : Nat} (base dk : ℚ)
    (oI oD : List (Fin n)) (oP : List (Fin m)) (evs evs2 : List (Fin n × ℚ))
    (st : SimState n m)
    (hI : ∀ i, i ∈ oI) (hD : ∀ i, i ∈ oD) (hP : ∀ j, j ∈ oP) (hPnd : oP.Nodup)
    (hperm : evs2.Perm evs) :
    stepSeq base dk oI oD oP evs2 st = stepPar base dk evs st := by
  have e1 : integSeq oI st = integPar st := by
    rw [integSeq_decomp]
    unfold integPar
    congr 1
    exact foldl_update_cover_ro _ oI hI _
  have e2 : ∀ s : SimState n m, detectSeq oD s = detectPar s := by
    intro s
    rw [detectSeq_decomp]
    unfold detectPar
    congr 1
    · exact foldl_update_cover_ro _ oD hD _
    · exact foldl_update_cover_ro _ oD hD _
  have e3 : ∀ s : SimState n m, accumSeq evs2 s = accumPar evs s := by
    intro s
    rw [accumSeq_decomp]
    unfold accumPar
    congr 1
    funext i
    rw [foldl_accum_decomp evs2 s.gAMPA i]
    have hsum : ((evs2.filter fun ev => ev.1 = i).map Prod.snd).sum =
        ((evs.filter fun ev => ev.1 = i).map Prod.snd).sum :=
      List.Perm.sum_eq (List.Perm.map _ (List.Perm.filter _ hperm))
    rw [hsum]
  have e4 : ∀ s : SimState n m, plastSeq oP s = plastPar s := by
    intro s
    rw [plastSeq_decomp]
    unfold plastPar
    congr 1
    exact foldl_update_self_cover
      (fun w j => plastAt w (s.wtChange j) (s.maxSynWt j)) oP hPnd hP s.wt
  show neuromodDecay base dk (plastSeq oP (accumSeq evs2 (detectSeq oD (integSeq oI st)))) = _
  rw [e1, e2, e3, e4]
  rfl

theorem step_seq_par_identical_witness :
    stepSeq 1 (1/2) [0, 1] [1, 0] [0, 1] [(1, 3), (0, 2)]
        (⟨fun j => (j.val : ℚ), fun _ => 0, fun _ => 1, fun _ => false, fun _ => 4,
          fun _ => 1, fun _ => 2, fun _ => 5, 7⟩ : SimState 2 2) =
      stepPar 1 (1/2) [(0, 2), (1, 3)]
        (⟨fun j => (j.val : ℚ), fun _ => 0, fun _ => 1, fun _ => false, fun _ => 4,
          fun _ => 1, fun _ => 2, fun _ => 5, 7⟩ : SimState 2 2) :=
  step_seq_par_identical 1 (1/2) [0, 1] [1, 0] [0, 1] [(0, 2), (1, 3)] [(1, 3), (0, 2)] _
    (by decide) (by decide) (by decide) (by decide) (by decide)

/-- C1 counterexample: with `bucketCount = maxDelay = 1` — a configuration
the claim's guard `bucketCount ≥ maxDelay` allows — the spike enqueued at
step 0 with delay class 1 is produced by `drainDue` already at step 0 and
never at step 0 + 1 = 1, because the spec's phase order enqueues it into
the very bucket that is drained in the same step. -/
theorem spike_drain_wrong_step_when_buckets_eq_maxDelay :
    ((outSDQ 1 (fun t => if t = 0 then [(7, 1)] else []) 0).count 7 = 1 ∧
        (outSDQ 1 (fun t => if t = 0 then [(7, 1)] else []) 1).count 7 = 0) ∧
      ¬(0 : Nat) = 0 + 1 := by
  refine ⟨⟨?_, ?_⟩, by omega⟩ <;> rfl

end SNN
